import Mathlib

/-!
Verification development for the pytket-braket gate-dialect translator
(`pytket/extensions/braket/braket_convert.py`).

Shallow embedding conventions:

* Angles are represented exactly as rationals, in half-turn units (multiples
  of π).  The Python source stores braket angles in radians, obtained by
  multiplying the half-turn value by π on the forward direction and dividing
  by π on the reverse direction.  Over the exact reals these two operations
  are mutually inverse bijections (π ≠ 0), so the embedding stores the
  half-turn coefficient in the braket instruction and the source's `* pi`
  and `/ pi` become the identity on that coefficient.
* Python floats are modelled by exact rationals; `n % 4` on a float with
  positive modulus is `n - 4 * ⌊n / 4⌋`.
* Python dicts keyed by ints are modelled by association lists with
  insertion-order-preserving overwrite, matching dict assignment semantics.
* A pytket `Qubit` of the default register `q` is identified by its numeric
  label `index[0]`; circuits carry the ordered list of declared qubit
  labels (the source iterates `tkcirc.qubits` in order).  Bits appear in
  commands by their position in the circuit's bit list, which is exactly
  the value `tkcirc1.bits.index(cb)` computed by the source.
* The implicit end-of-circuit qubit permutation of a pytket circuit is
  modelled as a list of transpositions of qubit positions; pytket's
  `replace_implicit_wire_swaps` replaces it by explicit SWAP gates appended
  at the end of the command list and resets the permutation to the
  identity (the empty list).
* Fallible translation returns `Except String`, mirroring the
  `NotImplementedError` raised by the source; `Except.error` carries no
  circuit, so a failed call produces no output artifact.
-/

namespace PytketBraket

/-- Gate kinds of the canonical (pytket) IR that occur in the translator,
together with a representative unsupported kind (`U3`, the three-parameter
generic single-qubit unitary used by the repository's own unsupported-gate
test). -/
inductive TkOpType where
  | CCX | CX | CU1 | CSWAP | CY | CZ | H | noop | ISWAPMax | U1
  | Rx | Ry | Rz | S | Sdg | SWAP | T | Tdg | V | Vdg | X
  | XXPhase | ISWAP | Y | YYPhase | Z | ZZPhase | GPI | GPI2
  | AAMS | PhasedX | Barrier | Measure | U3
  deriving DecidableEq, Repr

/-- A command of a canonical circuit: gate kind, angle parameters in
half-turn units, operand qubit labels, operand bit positions. -/
structure TkCommand where
  op : TkOpType
  params : List ℚ
  qubits : List ℕ
  bits : List ℕ
  deriving DecidableEq, Repr

/-- A canonical circuit: ordered declared qubit labels, the command list,
the implicit end-of-circuit qubit permutation (as a list of transpositions
of qubit positions; `[]` is the identity), and the scalar global phase in
half-turn units. -/
structure TkCircuit where
  qubits : List ℕ
  commands : List TkCommand
  implicitPerm : List (ℕ × ℕ)
  phase : ℚ
  deriving DecidableEq, Repr

/-- A braket instruction: operator name (as dispatched on by
`braket_to_tk`), target qubit indices, and angle arguments stored as
half-turn coefficients (the radian value divided by π; see the module
docstring). -/
structure BKInstruction where
  name : String
  target : List ℕ
  angles : List ℚ
  deriving DecidableEq, Repr

/-- A braket circuit is its instruction list. -/
structure BKCircuit where
  instructions : List BKInstruction
  deriving DecidableEq, Repr

/-! ### The angle normalizer (`_normalize_angle`) -/

/-- Python float modulo with modulus 4: `n % 4 = n - 4 * ⌊n / 4⌋`, always
in `[0, 4)`. -/
def pymod4 (n : ℚ) : ℚ := n - 4 * (⌊n / 4⌋ : ℤ)

/-- Embedding of `_normalize_angle`: reduce `n0 = n % 4`; if `n0 > 2`
subtract 4. -/
def normalize_angle (n : ℚ) : ℚ :=
  let n0 := pymod4 n
  if n0 > 2 then n0 - 4 else n0

/-! ### The forward translator (`tk_to_braket`) -/

/-- Position of a qubit label in the circuit's qubit list, mirroring
`tkcirc1.qubits.index(qb)` (declared labels are distinct, so the first hit
is the position; an undeclared label yields the list length, a case
excluded by the data-model invariant that operands reference declared
qubits). -/
def posOf : List ℕ → ℕ → ℕ
  | [], _ => 0
  | y :: rest, x => if y = x then 0 else posOf rest x + 1

/-- Braket qubit index of a command operand:
`qb.index[0] if mapped_qubits else tkcirc1.qubits.index(qb)`. -/
def trQubit (mapped : Bool) (qlist : List ℕ) (lab : ℕ) : ℕ :=
  if mapped then lab else posOf qlist lab

/-- Python dict assignment `d[k] = v` on an int-keyed dict, as an
association list: overwrite in place when the key is present, append
otherwise (dict semantics preserve insertion order). -/
def dictInsert (d : List (ℕ × ℕ)) (k v : ℕ) : List (ℕ × ℕ) :=
  if d.any (fun p => p.1 == k) then
    d.map (fun p => if p.1 = k then (k, v) else p)
  else d ++ [(k, v)]

/-- Lookup in an association list (first entry wins; keys produced by
`dictInsert` folds are distinct). -/
def dictLookup : List (ℕ × ℕ) → ℕ → Option ℕ
  | [], _ => none
  | p :: rest, k => if p.1 = k then some p.2 else dictLookup rest k

/-- One step of the forward command loop of `tk_to_braket`: translate one
command given the accumulated instruction list and measurement map.  The
branches mirror the if/elif chain of the source in order; the final
catch-all is the `NotImplementedError`.  Angle arguments are stored as
half-turn coefficients (the source multiplies each by π to produce
radians). -/
def convertCommand (mapped : Bool) (qlist : List ℕ)
    (st : List BKInstruction × List (ℕ × ℕ)) (cmd : TkCommand) :
    Except String (List BKInstruction × List (ℕ × ℕ)) :=
  let qbs := cmd.qubits.map (trQubit mapped qlist)
  let cbs := cmd.bits
  let ps := cmd.params
  let emit := fun (name : String) (angles : List ℚ) =>
    Except.ok (st.1 ++ [⟨name, qbs, angles⟩], st.2)
  match cmd.op with
  | .Barrier => .ok st
  | .CCX => emit "CCNot" []
  | .CX => emit "CNot" []
  | .CU1 => emit "CPhaseShift" [ps.getD 0 0]
  | .CSWAP => emit "CSwap" []
  | .CY => emit "CY" []
  | .CZ => emit "CZ" []
  | .H => emit "H" []
  | .noop => .ok st
  | .ISWAPMax => emit "ISwap" []
  | .U1 => emit "PhaseShift" [ps.getD 0 0]
  | .Rx => emit "Rx" [normalize_angle (ps.getD 0 0)]
  | .Ry => emit "Ry" [ps.getD 0 0]
  | .Rz => emit "Rz" [normalize_angle (ps.getD 0 0)]
  | .S => emit "S" []
  | .Sdg => emit "Si" []
  | .SWAP => emit "Swap" []
  | .T => emit "T" []
  | .Tdg => emit "Ti" []
  | .V => emit "V" []
  | .Vdg => emit "Vi" []
  | .X => emit "X" []
  | .XXPhase => emit "XX" [ps.getD 0 0]
  | .ISWAP => emit "XY" [ps.getD 0 0]
  | .Y => emit "Y" []
  | .YYPhase => emit "YY" [ps.getD 0 0]
  | .Z => emit "Z" []
  | .ZZPhase => emit "ZZ" [normalize_angle (ps.getD 0 0)]
  | .GPI => emit "GPi" [normalize_angle (ps.getD 0 0)]
  | .GPI2 => emit "GPi2" [normalize_angle (ps.getD 0 0)]
  | .AAMS =>
    emit "MS" [normalize_angle (ps.getD 1 0), normalize_angle (ps.getD 2 0),
      normalize_angle (ps.getD 0 0)]
  | .PhasedX =>
    emit "PRx" [normalize_angle (ps.getD 0 0), normalize_angle (ps.getD 1 0)]
  | .Measure => .ok (st.1, dictInsert st.2 (qbs.getD 0 0) (cbs.getD 0 0))
  | .U3 => .error "Cannot convert to braket"

/-- The forward command loop (`for cmd in tkcirc1.get_commands()`). -/
def convertCommands (mapped : Bool) (qlist : List ℕ) :
    List TkCommand → List BKInstruction × List (ℕ × ℕ) →
    Except String (List BKInstruction × List (ℕ × ℕ))
  | [], st => .ok st
  | cmd :: rest, st =>
    match convertCommand mapped qlist st cmd with
    | .error e => .error e
    | .ok st1 => convertCommands mapped qlist rest st1

/-- Model of pytket's `Circuit.replace_implicit_wire_swaps`: the implicit
end-of-circuit qubit permutation is replaced by explicit SWAP gates
appended at the end of the command list (one per transposition of the
permutation, acting on the corresponding qubit labels), and the
permutation is reset to the identity. -/
def replace_implicit_wire_swaps (c : TkCircuit) : TkCircuit :=
  { c with
    commands := c.commands ++ c.implicitPerm.map (fun pr =>
      ⟨.SWAP, [], [c.qubits.getD pr.1 0, c.qubits.getD pr.2 0], []⟩),
    implicitPerm := [] }

/-- Number of measurement gates, `tkcirc1.n_gates_of_type(OpType.Measure)`. -/
def nMeasureGates (c : TkCircuit) : ℕ :=
  c.commands.countP (fun cmd => cmd.op == .Measure)

/-- The target qubit index list: one entry per declared qubit in order,
`qb.index[0] if mapped_qubits else i` for the i-th declared qubit. -/
def targetQubitsOf (mapped : Bool) (qlist : List ℕ) : List ℕ :=
  qlist.enum.map (fun p => if mapped then p.2 else p.1)

/-- Embedding of `tk_to_braket`: eliminate the implicit permutation when
the circuit is measurement-free, build the target qubit list, optionally
emit identity instructions on target and forced qubits, then run the
command loop.  Returns the braket circuit, the target qubit list and the
measurement map; a failed conversion returns an error and no artifact. -/
def tk_to_braket (tkcirc : TkCircuit) (mapped_qubits : Bool)
    (forced_qubits : Option (List ℕ)) (force_ops_on_target_qubits : Bool) :
    Except String (BKCircuit × List ℕ × List (ℕ × ℕ)) :=
  let tkcirc1 :=
    if nMeasureGates tkcirc = 0 then replace_implicit_wire_swaps tkcirc
    else tkcirc
  let target_qubits := targetQubitsOf mapped_qubits tkcirc1.qubits
  let init : List BKInstruction :=
    (if force_ops_on_target_qubits then
        target_qubits.map (fun q => ⟨"I", [q], []⟩)
      else []) ++
    (match forced_qubits with
      | some fq => fq.map (fun q => ⟨"I", [q], []⟩)
      | none => [])
  (convertCommands mapped_qubits tkcirc1.qubits tkcirc1.commands
      (init, [])).map
    (fun st => (⟨st.1⟩, target_qubits, st.2))

/-! ### The reverse translator (`braket_to_tk`) -/

/-- Insert into an ascending list of distinct naturals. -/
def sortedInsert (x : ℕ) : List ℕ → List ℕ
  | [] => [x]
  | y :: rest =>
    if x < y then x :: y :: rest
    else if x = y then y :: rest
    else y :: sortedInsert x rest

/-- The qubit set of a braket circuit (`bkcirc.qubits`): the distinct
target indices of its instructions, in ascending order. -/
def bkQubits (bk : BKCircuit) : List ℕ :=
  bk.instructions.foldl
    (fun acc ins => ins.target.foldl (fun a q => sortedInsert q a) acc) []

/-- One step of the reverse instruction loop of `braket_to_tk`: dispatch on
the braket operator name; angle arguments convert back by dividing by π,
i.e. the stored half-turn coefficient is used directly.  The `V` and `Vi`
branches additionally adjust the circuit's global phase by `+1/4` and
`-1/4` half-turns (`add_phase`); identity instructions are dropped; the
catch-all is the `NotImplementedError`. -/
def revStep (st : List TkCommand × ℚ) (ins : BKInstruction) :
    Except String (List TkCommand × ℚ) :=
  let qbs := ins.target
  let add := fun (op : TkOpType) (params : List ℚ) =>
    Except.ok (st.1 ++ [⟨op, params, qbs, []⟩], st.2)
  match ins.name with
  | "CCNot" => add .CCX []
  | "CNot" => add .CX []
  | "CPhaseShift" => add .CU1 [ins.angles.getD 0 0]
  | "CSwap" => add .CSWAP []
  | "CY" => add .CY []
  | "CZ" => add .CZ []
  | "H" => add .H []
  | "I" => .ok st
  | "ISwap" => add .ISWAPMax []
  | "PhaseShift" => add .U1 [ins.angles.getD 0 0]
  | "PRx" => add .PhasedX [ins.angles.getD 0 0, ins.angles.getD 1 0]
  | "Rx" => add .Rx [ins.angles.getD 0 0]
  | "Ry" => add .Ry [ins.angles.getD 0 0]
  | "Rz" => add .Rz [ins.angles.getD 0 0]
  | "S" => add .S []
  | "Si" => add .Sdg []
  | "Swap" => add .SWAP []
  | "T" => add .T []
  | "Ti" => add .Tdg []
  | "V" => .ok (st.1 ++ [⟨.V, [], qbs, []⟩], st.2 + 1/4)
  | "Vi" => .ok (st.1 ++ [⟨.Vdg, [], qbs, []⟩], st.2 - 1/4)
  | "X" => add .X []
  | "XX" => add .XXPhase [ins.angles.getD 0 0]
  | "XY" => add .ISWAP [ins.angles.getD 0 0]
  | "Y" => add .Y []
  | "YY" => add .YYPhase [ins.angles.getD 0 0]
  | "Z" => add .Z []
  | "ZZ" => add .ZZPhase [ins.angles.getD 0 0]
  | _ => .error "Cannot convert to tket"

/-- The reverse instruction loop (`for instr in bkcirc.instructions`). -/
def revLoop : List BKInstruction → List TkCommand × ℚ →
    Except String (List TkCommand × ℚ)
  | [], st => .ok st
  | ins :: rest, st =>
    match revStep st ins with
    | .error e => .error e
    | .ok st1 => revLoop rest st1

/-- Embedding of `braket_to_tk`: one canonical qubit per referenced braket
index (label equals index), then the instruction loop. -/
def braket_to_tk (bkcirc : BKCircuit) : Except String TkCircuit :=
  (revLoop bkcirc.instructions ([], 0)).map
    (fun st => { qubits := bkQubits bkcirc, commands := st.1,
                 implicitPerm := [], phase := st.2 })

/-! ### Supported-gate predicates -/

/-- Gate kinds having a branch in the forward dispatch of `tk_to_braket`
(everything except the final `else` raising `NotImplementedError`). -/
def fwdSupported (op : TkOpType) : Bool :=
  match op with
  | .U3 => false
  | _ => true

/-- The braket operator names having a branch in the reverse dispatch of
`braket_to_tk`, in dispatch order. -/
def revTableNames : List String :=
  ["CCNot", "CNot", "CPhaseShift", "CSwap", "CY", "CZ", "H", "I",
   "ISwap", "PhaseShift", "PRx", "Rx", "Ry", "Rz", "S", "Si",
   "Swap", "T", "Ti", "V", "Vi", "X", "XX", "XY", "Y", "YY", "Z", "ZZ"]

/-- Membership in the reverse lookup table. -/
def revSupported (name : String) : Bool := revTableNames.contains name

/-- Supported gate kinds that emit exactly one braket instruction: every
kind of the forward table except barriers, measurements and no-ops, which
emit none (and the unsupported kinds, which fail). -/
def emitsInstruction (op : TkOpType) : Bool :=
  match op with
  | .Barrier | .Measure | .noop | .U3 => false
  | _ => true

/-- Gate kinds whose forward mapping is "direct": exactly one braket
instruction, no angle normalization.  This excludes the erased kinds
(barrier, measurement, no-op) and every kind routed through the
normalizer (Rx, Rz, ZZPhase, GPI, GPI2, AAMS, PhasedX). -/
def directGate (op : TkOpType) : Bool :=
  match op with
  | .CCX | .CX | .CU1 | .CSWAP | .CY | .CZ | .H | .ISWAPMax | .U1 | .Ry
  | .S | .Sdg | .SWAP | .T | .Tdg | .V | .Vdg | .X | .XXPhase | .ISWAP
  | .Y | .YYPhase | .Z => true
  | _ => false

/-- Fixed number of qubit operands of each gate kind. -/
def qubitArity (op : TkOpType) : ℕ :=
  match op with
  | .CCX | .CSWAP => 3
  | .CX | .CU1 | .CY | .CZ | .ISWAPMax | .SWAP | .XXPhase | .ISWAP
  | .YYPhase | .ZZPhase | .AAMS => 2
  | _ => 1

/-- Fixed number of angle parameters of each gate kind. -/
def paramArity (op : TkOpType) : ℕ :=
  match op with
  | .CU1 | .U1 | .Rx | .Ry | .Rz | .XXPhase | .ISWAP | .YYPhase | .ZZPhase
  | .GPI | .GPI2 => 1
  | .PhasedX => 2
  | .AAMS | .U3 => 3
  | _ => 0

/-- Well-formedness of a command in a circuit declaring the qubit labels
`qlist`: operand and parameter counts match the gate kind's fixed arity,
qubit operands reference declared qubits, and bit operands occur only on
measurements (the data-model invariant of the canonical IR). -/
def wfCommand (qlist : List ℕ) (cmd : TkCommand) : Bool :=
  (cmd.qubits.length == qubitArity cmd.op) &&
  (cmd.params.length == paramArity cmd.op) &&
  cmd.qubits.all (fun q => qlist.contains q) &&
  (if cmd.op = .Measure then cmd.bits.length == 1 else cmd.bits == [])

/-- The single braket instruction emitted for a direct-mapped command whose
qubit operands already coincide with their braket indices (the situation of
a default dense register).  Unused for non-direct kinds. -/
def directImage (cmd : TkCommand) : BKInstruction :=
  match cmd.op with
  | .CCX => ⟨"CCNot", cmd.qubits, []⟩
  | .CX => ⟨"CNot", cmd.qubits, []⟩
  | .CU1 => ⟨"CPhaseShift", cmd.qubits, cmd.params⟩
  | .CSWAP => ⟨"CSwap", cmd.qubits, []⟩
  | .CY => ⟨"CY", cmd.qubits, []⟩
  | .CZ => ⟨"CZ", cmd.qubits, []⟩
  | .H => ⟨"H", cmd.qubits, []⟩
  | .ISWAPMax => ⟨"ISwap", cmd.qubits, []⟩
  | .U1 => ⟨"PhaseShift", cmd.qubits, cmd.params⟩
  | .Ry => ⟨"Ry", cmd.qubits, cmd.params⟩
  | .S => ⟨"S", cmd.qubits, []⟩
  | .Sdg => ⟨"Si", cmd.qubits, []⟩
  | .SWAP => ⟨"Swap", cmd.qubits, []⟩
  | .T => ⟨"T", cmd.qubits, []⟩
  | .Tdg => ⟨"Ti", cmd.qubits, []⟩
  | .V => ⟨"V", cmd.qubits, []⟩
  | .Vdg => ⟨"Vi", cmd.qubits, []⟩
  | .X => ⟨"X", cmd.qubits, []⟩
  | .XXPhase => ⟨"XX", cmd.qubits, cmd.params⟩
  | .ISWAP => ⟨"XY", cmd.qubits, cmd.params⟩
  | .Y => ⟨"Y", cmd.qubits, []⟩
  | .YYPhase => ⟨"YY", cmd.qubits, cmd.params⟩
  | .Z => ⟨"Z", cmd.qubits, []⟩
  | _ => ⟨"", [], []⟩

/-- The (braket qubit index, pytket bit index) pairs recorded by the
measurement branch of the forward loop, in source order. -/
def measurePairList (m : Bool) (qlist : List ℕ) (cmds : List TkCommand) :
    List (ℕ × ℕ) :=
  cmds.filterMap (fun cmd =>
    if cmd.op = .Measure then
      some ((cmd.qubits.map (trQubit m qlist)).getD 0 0, cmd.bits.getD 0 0)
    else none)

/-- Forward translation with default flags followed by reverse translation
of the produced braket circuit. -/
def roundTrip (c : TkCircuit) : Except String TkCircuit :=
  match tk_to_braket c false none false with
  | .error e => .error e
  | .ok (bk, _, _) => braket_to_tk bk

/-- True when an `Except` value holds a success. -/
def isOkE {ε α : Type} (e : Except ε α) : Bool :=
  match e with
  | .ok _ => true
  | .error _ => false

instance {ε α : Type} [DecidableEq ε] [DecidableEq α] :
    DecidableEq (Except ε α) := fun a b =>
  match a, b with
  | .error e1, .error e2 =>
    if h : e1 = e2 then .isTrue (by rw [h])
    else .isFalse (fun hc => h (by cases hc; rfl))
  | .ok a1, .ok a2 =>
    if h : a1 = a2 then .isTrue (by rw [h])
    else .isFalse (fun hc => h (by cases hc; rfl))
  | .error _, .ok _ => .isFalse (fun hc => by cases hc)
  | .ok _, .error _ => .isFalse (fun hc => by cases hc)

/-! ### Concrete circuits used by individual claims -/

/-- A single no-op on one qubit. -/
def cNoop : TkCircuit := ⟨[0], [⟨.noop, [], [0], []⟩], [], 0⟩

/-- A circuit whose only qubit has label 1 (declared position 0). -/
def cQ1 : TkCircuit := ⟨[1], [⟨.X, [], [1], []⟩], [], 0⟩

/-- A measurement-free circuit ending in an implicit transposition of
qubits 0 and 1 (the routing-artifact example of the spec). -/
def cPerm : TkCircuit :=
  ⟨[0, 1, 2], [⟨.X, [], [0], []⟩, ⟨.X, [], [2], []⟩], [(0, 1)], 0⟩

/-- A V gate followed by its inverse on qubit 0. -/
def cV : TkCircuit := ⟨[0], [⟨.V, [], [0], []⟩, ⟨.Vdg, [], [0], []⟩], [], 0⟩

/-- A direct-gate circuit in the style of the repository's round-trip
test: CX, H, S, T, SWAP, a Y-rotation of 3/10 half-turns, a controlled
phase of 1/2 half-turns, and a V. -/
def cRT : TkCircuit :=
  ⟨[0, 1],
   [⟨.CX, [], [0, 1], []⟩, ⟨.H, [], [0], []⟩, ⟨.S, [], [0], []⟩,
    ⟨.T, [], [1], []⟩, ⟨.SWAP, [], [0, 1], []⟩, ⟨.Ry, [3/10], [0], []⟩,
    ⟨.CU1, [1/2], [0, 1], []⟩, ⟨.V, [], [0], []⟩], [], 0⟩

/-- A circuit whose first gate touches qubit 2 although qubits are declared
in order 0, 1, 2 (declaration order differs from first-use order). -/
def cOrder : TkCircuit :=
  ⟨[0, 1, 2], [⟨.X, [], [2], []⟩, ⟨.X, [], [0], []⟩], [], 0⟩

/-- A circuit measuring qubit 0 twice, into bit 0 and then into bit 1. -/
def cMeas2 : TkCircuit :=
  ⟨[0], [⟨.Measure, [], [0], [0]⟩, ⟨.Measure, [], [0], [1]⟩], [], 0⟩

/-- A mixed circuit over the forward table: H, a barrier, a measurement, a
no-op and a CX. -/
def cMixed : TkCircuit :=
  ⟨[0, 1],
   [⟨.H, [], [0], []⟩, ⟨.Barrier, [], [0], []⟩, ⟨.Measure, [], [0], [0]⟩,
    ⟨.noop, [], [1], []⟩, ⟨.CX, [], [0, 1], []⟩], [], 0⟩

/-- The forward translation result of `cOrder`. -/
def cOrderRes : BKCircuit × List ℕ × List (ℕ × ℕ) :=
  (⟨[⟨"X", [2], []⟩, ⟨"X", [0], []⟩]⟩, [0, 1, 2], [])

/-! ### Properties of the angle normalizer -/

theorem pymod4_nonneg (n : ℚ) : 0 ≤ pymod4 n := by
  have h : (⌊n / 4⌋ : ℚ) ≤ n / 4 := Int.floor_le _
  have h4 : (0:ℚ) < 4 := by norm_num
  unfold pymod4
  nlinarith

theorem pymod4_lt_four (n : ℚ) : pymod4 n < 4 := by
  have h : n / 4 < (⌊n / 4⌋ : ℚ) + 1 := Int.lt_floor_add_one _
  have h4 : (0:ℚ) < 4 := by norm_num
  unfold pymod4
  nlinarith

theorem normalize_angle_mem (n : ℚ) :
    -2 < normalize_angle n ∧ normalize_angle n ≤ 2 := by
  have h0 := pymod4_nonneg n
  have h4 := pymod4_lt_four n
  unfold normalize_angle
  by_cases h : pymod4 n > 2
  · simp only [h, if_pos]
    constructor <;> linarith
  · simp only [h, if_neg, not_false_iff]
    push_neg at h
    constructor <;> linarith

theorem pymod4_of_mem (r : ℚ) (h0 : 0 ≤ r) (h1 : r < 4) : pymod4 r = r := by
  have hf : ⌊r / 4⌋ = 0 := by
    rw [Int.floor_eq_zero_iff]
    simp only [Set.mem_Ico]
    constructor
    · positivity
    · linarith
  unfold pymod4
  rw [hf]
  push_cast
  ring

theorem pymod4_of_neg_mem (r : ℚ) (h0 : -4 ≤ r) (h1 : r < 0) :
    pymod4 r = r + 4 := by
  have : ⌊r / 4⌋ = -1 := by
    have : r / 4 ∈ Set.Ico ((-1 : ℤ) : ℚ) ((-1 : ℤ) + 1 : ℤ) := by
      simp only [Set.mem_Ico]
      push_cast
      constructor <;> linarith
    exact Int.floor_eq_iff.mpr (by simpa using this)
  unfold pymod4
  rw [this]
  push_cast
  ring

theorem normalize_angle_fixed (r : ℚ) (h0 : -2 < r) (h1 : r ≤ 2) :
    normalize_angle r = r := by
  unfold normalize_angle
  by_cases hr : 0 ≤ r
  · rw [pymod4_of_mem r hr (by linarith)]
    simp only [if_neg (not_lt.mpr h1)]
  · push_neg at hr
    rw [pymod4_of_neg_mem r (by linarith) hr]
    have : r + 4 > 2 := by linarith
    simp only [if_pos this]
    ring

/-- C2: for every input `n` (Python floats embed exactly into the
rationals), the value of `_normalize_angle n` lies in the half-open
interval `(-2, 2]`, and `_normalize_angle` is idempotent:
applying it twice equals applying it once. -/
theorem C2_normalize_range_idempotent (n : ℚ) :
    (-2 < normalize_angle n ∧ normalize_angle n ≤ 2) ∧
      normalize_angle (normalize_angle n) = normalize_angle n := by
  obtain ⟨h1, h2⟩ := normalize_angle_mem n
  exact ⟨⟨h1, h2⟩, normalize_angle_fixed _ h1 h2⟩

/-! ### Per-branch behaviour of the forward dispatch -/

/-- C8: the three-angle AAMS gate is translated with every angle argument
passed through the angle normalizer (then scaled by π), and the target
arguments are emitted in the permuted order [p1, p2, p0] of the canonical
parameters [p0, p1, p2]. -/
theorem C8_aams_normalize_permute (mapped : Bool) (qlist : List ℕ)
    (st : List BKInstruction × List (ℕ × ℕ)) (p0 p1 p2 : ℚ)
    (qs bs : List ℕ) :
    convertCommand mapped qlist st ⟨.AAMS, [p0, p1, p2], qs, bs⟩ =
      .ok (st.1 ++ [⟨"MS", qs.map (trQubit mapped qlist),
        [normalize_angle p1, normalize_angle p2, normalize_angle p0]⟩],
        st.2) := rfl

/-- C7 amended: among the two-qubit phase-entangling families, XXPhase,
YYPhase and the tunable ISWAP are translated with the direct angle
conversion (raw half-turn value scaled by π, unnormalized), and only the
ZZPhase family passes its angle through the normalizer: the table contains
no normalized iSWAP-angle gate. -/
theorem C7_entangling_angle_modes (mapped : Bool) (qlist : List ℕ)
    (st : List BKInstruction × List (ℕ × ℕ)) (p : ℚ) (qs bs : List ℕ) :
    convertCommand mapped qlist st ⟨.XXPhase, [p], qs, bs⟩ =
      .ok (st.1 ++ [⟨"XX", qs.map (trQubit mapped qlist), [p]⟩], st.2) ∧
    convertCommand mapped qlist st ⟨.YYPhase, [p], qs, bs⟩ =
      .ok (st.1 ++ [⟨"YY", qs.map (trQubit mapped qlist), [p]⟩], st.2) ∧
    convertCommand mapped qlist st ⟨.ISWAP, [p], qs, bs⟩ =
      .ok (st.1 ++ [⟨"XY", qs.map (trQubit mapped qlist), [p]⟩], st.2) ∧
    convertCommand mapped qlist st ⟨.ZZPhase, [p], qs, bs⟩ =
      .ok (st.1 ++ [⟨"ZZ", qs.map (trQubit mapped qlist),
        [normalize_angle p]⟩], st.2) :=
  ⟨rfl, rfl, rfl, rfl⟩

/-- C7 counterexample: the only tunable iSWAP-angle gate of the forward
table (canonical ISWAP, emitted as braket XY) does not have its angle
normalized: at 3 half-turns the emitted coefficient is 3, while the
normalizer would produce -1. -/
theorem C7_iswap_angle_not_normalized :
    convertCommand false [0, 1] ([], []) ⟨.ISWAP, [3], [0, 1], []⟩ =
      .ok ([⟨"XY", [0, 1], [3]⟩], []) ∧
    normalize_angle 3 = -1 ∧ (3 : ℚ) ≠ -1 := by
  refine ⟨rfl, ?_, by norm_num⟩
  unfold normalize_angle
  rw [pymod4_of_mem 3 (by norm_num) (by norm_num)]
  norm_num

/-- C6: reverse translation of a braket V instruction appends the
canonical V gate and adjusts the global phase by +1/4 half-turns, a Vi
instruction appends Vdg and adjusts by -1/4 half-turns, and round-tripping
a V followed by its inverse yields exactly the two gate operations with
phase contributions +1/4 and -1/4 and net zero phase. -/
theorem C6_v_phase_compensation :
    (∀ (st : List TkCommand × ℚ) (qbs : List ℕ) (angles : List ℚ),
      revStep st ⟨"V", qbs, angles⟩ =
        .ok (st.1 ++ [⟨.V, [], qbs, []⟩], st.2 + 1/4)) ∧
    (∀ (st : List TkCommand × ℚ) (qbs : List ℕ) (angles : List ℚ),
      revStep st ⟨"Vi", qbs, angles⟩ =
        .ok (st.1 ++ [⟨.Vdg, [], qbs, []⟩], st.2 - 1/4)) ∧
    braket_to_tk ⟨[⟨"V", [0], []⟩]⟩ =
      .ok ⟨[0], [⟨.V, [], [0], []⟩], [], 1/4⟩ ∧
    braket_to_tk ⟨[⟨"Vi", [0], []⟩]⟩ =
      .ok ⟨[0], [⟨.Vdg, [], [0], []⟩], [], -(1/4)⟩ ∧
    roundTrip cV =
      .ok ⟨[0], [⟨.V, [], [0], []⟩, ⟨.Vdg, [], [0], []⟩], [], 0⟩ := by
  refine ⟨fun _ _ _ => rfl, fun _ _ _ => rfl, ?_, ?_, ?_⟩
  · have h : braket_to_tk ⟨[⟨"V", [0], []⟩]⟩ =
        .ok ⟨[0], [⟨.V, [], [0], []⟩], [], 0 + 1/4⟩ := rfl
    rw [h]
    norm_num
  · have h : braket_to_tk ⟨[⟨"Vi", [0], []⟩]⟩ =
        .ok ⟨[0], [⟨.Vdg, [], [0], []⟩], [], 0 - 1/4⟩ := rfl
    rw [h]
    norm_num
  · have h : roundTrip cV =
        .ok ⟨[0], [⟨.V, [], [0], []⟩, ⟨.Vdg, [], [0], []⟩], [],
          0 + 1/4 - 1/4⟩ := rfl
    rw [h]
    norm_num

/-! ### Generic facts about the Except plumbing -/

theorem isOkE_map {ε α β : Type} (f : α → β) (e : Except ε α) :
    isOkE (e.map f) = isOkE e := by
  cases e <;> rfl

theorem map_eq_ok {ε α β : Type} (f : α → β) (e : Except ε α) (b : β)
    (h : e.map f = .ok b) : ∃ a, e = .ok a ∧ b = f a := by
  cases e with
  | error x => simp [Except.map] at h
  | ok a =>
    refine ⟨a, rfl, ?_⟩
    simp only [Except.map] at h
    cases h
    rfl

/-! ### The target qubit list -/

theorem targetQubitsOf_unmapped (l : List ℕ) :
    targetQubitsOf false l = List.range l.length := by
  unfold targetQubitsOf
  simp [List.enum_map_fst]

theorem targetQubitsOf_mapped (l : List ℕ) :
    targetQubitsOf true l = l := by
  unfold targetQubitsOf
  simp [List.enum_map_snd]

theorem tk_to_braket_target (c : TkCircuit) (m : Bool) (fq : Option (List ℕ))
    (fo : Bool) (r : BKCircuit × List ℕ × List (ℕ × ℕ))
    (h : tk_to_braket c m fq fo = .ok r) :
    r.2.1 = targetQubitsOf m c.qubits := by
  have hq : (if nMeasureGates c = 0 then replace_implicit_wire_swaps c
      else c).qubits = c.qubits := by
    split <;> rfl
  simp only [tk_to_braket] at h
  rw [hq] at h
  obtain ⟨st, _, hb⟩ := map_eq_ok _ _ _ h
  rw [hb]

/-- C9: the target qubit index list returned by forward translation
follows the circuit's declared qubit order, one entry per declared qubit
and independent of the order in which commands first use qubits: with
mapped_qubits false the entry for the i-th declared qubit is i, and with
mapped_qubits true it is that qubit's intrinsic numeric label. -/
theorem C9_target_qubit_order (c : TkCircuit) (fq : Option (List ℕ))
    (fo : Bool) (r rm : BKCircuit × List ℕ × List (ℕ × ℕ))
    (h : tk_to_braket c false fq fo = .ok r)
    (hm : tk_to_braket c true fq fo = .ok rm) :
    r.2.1 = List.range c.qubits.length ∧ rm.2.1 = c.qubits :=
  ⟨by rw [tk_to_braket_target c false fq fo r h, targetQubitsOf_unmapped],
   by rw [tk_to_braket_target c true fq fo rm hm, targetQubitsOf_mapped]⟩

/-- C9 witness: the circuit `cOrder` declares qubits 0, 1, 2 in that order
but first uses qubit 2; the returned index list is still [0, 1, 2] in both
numbering modes. -/
theorem C9_target_qubit_order_witness :
    cOrderRes.2.1 = List.range cOrder.qubits.length ∧
      cOrderRes.2.1 = cOrder.qubits :=
  C9_target_qubit_order cOrder none false cOrderRes cOrderRes
    (by decide) (by decide)

/-! ### Success and failure of the two translators -/

theorem convertCommand_isOk (m : Bool) (q : List ℕ)
    (st : List BKInstruction × List (ℕ × ℕ)) (cmd : TkCommand) :
    isOkE (convertCommand m q st cmd) = fwdSupported cmd.op := by
  obtain ⟨op, params, qubits, bits⟩ := cmd
  cases op <;> rfl

theorem convertCommands_isOk (m : Bool) (q : List ℕ) (cmds : List TkCommand)
    (st : List BKInstruction × List (ℕ × ℕ)) :
    isOkE (convertCommands m q cmds st) =
      cmds.all (fun cmd => fwdSupported cmd.op) := by
  induction cmds generalizing st with
  | nil => rfl
  | cons cmd rest ih =>
    have hc := convertCommand_isOk m q st cmd
    simp only [convertCommands, List.all_cons]
    cases hcv : convertCommand m q st cmd with
    | error e =>
      rw [hcv] at hc
      simp only [isOkE] at hc
      rw [← hc]
      simp [isOkE]
    | ok st1 =>
      rw [hcv] at hc
      simp only [isOkE] at hc
      rw [← hc, ih st1]
      simp

theorem revStep_isOk (st : List TkCommand × ℚ) (ins : BKInstruction) :
    isOkE (revStep st ins) = revSupported ins.name := by
  obtain ⟨name, target, angles⟩ := ins
  unfold revStep
  split <;> simp_all [revSupported, revTableNames, isOkE]

theorem revLoop_isOk (instrs : List BKInstruction) (st : List TkCommand × ℚ) :
    isOkE (revLoop instrs st) =
      instrs.all (fun ins => revSupported ins.name) := by
  induction instrs generalizing st with
  | nil => rfl
  | cons ins rest ih =>
    have hc := revStep_isOk st ins
    simp only [revLoop, List.all_cons]
    cases hcv : revStep st ins with
    | error e =>
      rw [hcv] at hc
      simp only [isOkE] at hc
      rw [← hc]
      simp [isOkE]
    | ok st1 =>
      rw [hcv] at hc
      simp only [isOkE] at hc
      rw [← hc, ih st1]
      simp

/-- C4: translation is atomic and total exactly over the supported subset,
in both directions: a call succeeds precisely when every canonical gate
kind (forward) or target instruction name (reverse) has an entry in the
fixed lookup table; otherwise it returns the unsupported-gate error and no
output artifact (the error value carries no circuit, and the input, being
a pure value, is unchanged). -/
theorem C4_unsupported_error_atomicity :
    (∀ (c : TkCircuit) (m : Bool) (fq : Option (List ℕ)) (fo : Bool),
      isOkE (tk_to_braket c m fq fo) =
        c.commands.all (fun cmd => fwdSupported cmd.op)) ∧
    (∀ bk : BKCircuit,
      isOkE (braket_to_tk bk) =
        bk.instructions.all (fun ins => revSupported ins.name)) := by
  constructor
  · intro c m fq fo
    simp only [tk_to_braket, isOkE_map, convertCommands_isOk]
    split
    · unfold replace_implicit_wire_swaps
      simp only [List.all_append]
      have hswaps :
          (c.implicitPerm.map (fun pr => (⟨.SWAP, [], [c.qubits.getD pr.1 0,
            c.qubits.getD pr.2 0], []⟩ : TkCommand))).all
            (fun cmd => fwdSupported cmd.op) = true := by
        apply List.all_eq_true.mpr
        intro cmd hmem
        obtain ⟨pr, _, rfl⟩ := List.mem_map.mp hmem
        rfl
      rw [hswaps]
      simp
    · rfl
  · intro bk
    simp only [braket_to_tk, isOkE_map, revLoop_isOk]

/-! ### Instruction counting and the measurement map of the forward loop -/

theorem convertCommand_ok_spec (m : Bool) (q : List ℕ)
    (st st1 : List BKInstruction × List (ℕ × ℕ)) (cmd : TkCommand)
    (h : convertCommand m q st cmd = .ok st1) :
    st1.1.length = st.1.length +
      (if emitsInstruction cmd.op then 1 else 0) ∧
    st1.2 = (if cmd.op = .Measure
      then dictInsert st.2 ((cmd.qubits.map (trQubit m q)).getD 0 0)
        (cmd.bits.getD 0 0)
      else st.2) := by
  obtain ⟨op, params, qubits, bits⟩ := cmd
  cases op <;> simp only [convertCommand] at h <;>
    (try exact Except.noConfusion h) <;>
    cases h <;> simp [emitsInstruction]

theorem convertCommands_ok_spec (m : Bool) (q : List ℕ)
    (cmds : List TkCommand) :
    ∀ (st st1 : List BKInstruction × List (ℕ × ℕ)),
      convertCommands m q cmds st = .ok st1 →
      st1.1.length = st.1.length +
        cmds.countP (fun cmd => emitsInstruction cmd.op) ∧
      st1.2 = (measurePairList m q cmds).foldl
        (fun d pr => dictInsert d pr.1 pr.2) st.2 := by
  induction cmds with
  | nil =>
    intro st st1 h
    cases h
    simp [measurePairList]
  | cons cmd rest ih =>
    intro st st1 h
    simp only [convertCommands] at h
    cases hcv : convertCommand m q st cmd with
    | error e =>
      rw [hcv] at h
      exact Except.noConfusion h
    | ok stm =>
      rw [hcv] at h
      obtain ⟨hl, hm⟩ := convertCommand_ok_spec m q st stm cmd hcv
      obtain ⟨hl2, hm2⟩ := ih stm st1 h
      constructor
      · rw [hl2, hl, List.countP_cons]
        cases hE : emitsInstruction cmd.op <;> simp [hE] <;> omega
      · rw [hm2, hm]
        by_cases hMe : cmd.op = .Measure
        · simp [measurePairList, hMe, List.filterMap_cons]
        · simp [measurePairList, hMe, List.filterMap_cons]

theorem replace_implicit_nil (c : TkCircuit) (h : c.implicitPerm = []) :
    replace_implicit_wire_swaps c = c := by
  obtain ⟨q, cs, p, ph⟩ := c
  dsimp only at h
  subst h
  simp [replace_implicit_wire_swaps]

/-- C1 amended: for a circuit built only from gate kinds of the forward
lookup table (hence with identity implicit permutation), with no forced
qubits and no forced identity gates, forward translation succeeds and the
braket circuit contains exactly one target instruction per source
operation that is neither a barrier, nor a measurement, nor a no-op
(no-ops are in the table but are dropped rather than emitted). -/
theorem C1_forward_totality_count (c : TkCircuit)
    (hsupp : c.commands.all (fun cmd => fwdSupported cmd.op) = true)
    (hperm : c.implicitPerm = []) :
    ∃ (bk : BKCircuit) (tq : List ℕ) (ms : List (ℕ × ℕ)),
      tk_to_braket c false none false = .ok (bk, tq, ms) ∧
      bk.instructions.length =
        c.commands.countP (fun cmd => emitsInstruction cmd.op) := by
  have hc1 : (if nMeasureGates c = 0 then replace_implicit_wire_swaps c
      else c) = c := by
    split
    · exact replace_implicit_nil c hperm
    · rfl
  cases hcc : convertCommands false c.qubits c.commands ([], []) with
  | error e =>
    have hok := convertCommands_isOk false c.qubits c.commands ([], [])
    rw [hcc, hsupp] at hok
    simp [isOkE] at hok
  | ok st1 =>
    obtain ⟨hl, _⟩ :=
      convertCommands_ok_spec false c.qubits c.commands ([], []) st1 hcc
    refine ⟨⟨st1.1⟩, targetQubitsOf false c.qubits, st1.2, ?_, ?_⟩
    · simp only [tk_to_braket, hc1]
      rw [show ((if (false : Bool) = true then
          List.map (fun q => (⟨"I", [q], []⟩ : BKInstruction))
            (targetQubitsOf false c.qubits) else []) ++
          (match (none : Option (List ℕ)) with
            | some fq => List.map (fun q => (⟨"I", [q], []⟩ : BKInstruction)) fq
            | none => []) : List BKInstruction) = [] from rfl]
      rw [hcc]
      rfl
    · simpa using hl

/-- C1 amended witness: the mixed circuit `cMixed` (H, barrier,
measurement, no-op, CX) translates successfully into exactly two
instructions, matching its count of emitting operations. -/
theorem C1_forward_totality_count_witness :
    ∃ (bk : BKCircuit) (tq : List ℕ) (ms : List (ℕ × ℕ)),
      tk_to_braket cMixed false none false = .ok (bk, tq, ms) ∧
      bk.instructions.length =
        cMixed.commands.countP (fun cmd => emitsInstruction cmd.op) :=
  C1_forward_totality_count cMixed (by decide) rfl

/-- C1 counterexample: a circuit consisting of a single no-op (a gate kind
present in the forward lookup table) translates successfully but yields
zero target instructions although it contains exactly one source operation
that is neither a barrier nor a measurement. -/
theorem C1_counterexample_noop :
    tk_to_braket cNoop false none false = .ok (⟨[]⟩, [0], []) ∧
    cNoop.commands.countP
      (fun cmd => !(cmd.op == .Barrier) && !(cmd.op == .Measure)) = 1 :=
  ⟨rfl, rfl⟩

/-! ### Handling of the implicit qubit permutation -/

theorem nMeasure_replace (c : TkCircuit) :
    nMeasureGates (replace_implicit_wire_swaps c) = nMeasureGates c := by
  unfold nMeasureGates replace_implicit_wire_swaps
  simp only [List.countP_append]
  have hz : (c.implicitPerm.map (fun pr => (⟨.SWAP, [],
      [c.qubits.getD pr.1 0, c.qubits.getD pr.2 0], []⟩ : TkCommand))).countP
        (fun cmd => cmd.op == .Measure) = 0 := by
    apply List.countP_eq_zero.mpr
    intro cmd hmem
    obtain ⟨pr, _, rfl⟩ := List.mem_map.mp hmem
    simp
  rw [hz]
  omega

/-- C5 amended: when the circuit contains no measurement operations the
translator first replaces the implicit end-of-circuit qubit permutation by
explicit SWAP gates, so a measurement-free circuit ending in an implicit
relabeling translates identically to the same circuit with the relabeling
made explicit as SWAP gates (not to the circuit with the relabeling
removed); when at least one measurement is present the step is skipped and
the permutation is ignored, so the circuit then translates identically to
the circuit with the relabeling removed. -/
theorem C5_implicit_perm_handling (c : TkCircuit) (m : Bool)
    (fq : Option (List ℕ)) (fo : Bool) :
    (nMeasureGates c = 0 →
      tk_to_braket c m fq fo =
        tk_to_braket (replace_implicit_wire_swaps c) m fq fo) ∧
    (nMeasureGates c ≠ 0 →
      tk_to_braket c m fq fo =
        tk_to_braket { c with implicitPerm := [] } m fq fo) := by
  constructor
  · intro h0
    have e1 : (if nMeasureGates c = 0 then replace_implicit_wire_swaps c
        else c) = replace_implicit_wire_swaps c := if_pos h0
    have e2 : (if nMeasureGates (replace_implicit_wire_swaps c) = 0 then
        replace_implicit_wire_swaps (replace_implicit_wire_swaps c)
        else replace_implicit_wire_swaps c) =
        replace_implicit_wire_swaps c := by
      rw [nMeasure_replace, if_pos h0]
      exact replace_implicit_nil _ rfl
    simp only [tk_to_braket, e1, e2]
  · intro hne
    have e1 : (if nMeasureGates c = 0 then replace_implicit_wire_swaps c
        else c) = c := if_neg hne
    have hns : nMeasureGates ({ c with implicitPerm := [] } : TkCircuit) =
        nMeasureGates c := rfl
    have e2 : (if nMeasureGates ({ c with implicitPerm := [] } : TkCircuit)
        = 0 then replace_implicit_wire_swaps { c with implicitPerm := [] }
        else ({ c with implicitPerm := [] } : TkCircuit)) =
        { c with implicitPerm := [] } := by
      rw [hns, if_neg hne]
    simp only [tk_to_braket, e1, e2]

/-- C5 witness: the measurement-free circuit `cPerm` translates
identically to its explicit-SWAP version. -/
theorem C5_implicit_perm_handling_witness :
    tk_to_braket cPerm false none false =
      tk_to_braket (replace_implicit_wire_swaps cPerm) false none false :=
  (C5_implicit_perm_handling cPerm false none false).1 rfl

/-- C5 counterexample: `cPerm` (no measurements, implicit transposition of
qubits 0 and 1 after X on qubits 0 and 2) does not translate identically
to the same circuit with the relabeling removed: an explicit Swap
instruction is emitted for the permutation. -/
theorem C5_counterexample_not_removed :
    tk_to_braket cPerm false none false =
      .ok (⟨[⟨"X", [0], []⟩, ⟨"X", [2], []⟩, ⟨"Swap", [0, 1], []⟩]⟩,
        [0, 1, 2], []) ∧
    tk_to_braket { cPerm with implicitPerm := [] } false none false =
      .ok (⟨[⟨"X", [0], []⟩, ⟨"X", [2], []⟩]⟩, [0, 1, 2], []) ∧
    tk_to_braket cPerm false none false ≠
      tk_to_braket { cPerm with implicitPerm := [] } false none false :=
  ⟨rfl, rfl, by decide⟩

/-! ### Python-dict semantics of the measurement map -/

theorem dictLookup_overwrite (d : List (ℕ × ℕ)) (k v : ℕ)
    (h : d.any (fun p => p.1 == k) = true) :
    dictLookup (d.map (fun p => if p.1 = k then (k, v) else p)) k
      = some v := by
  induction d with
  | nil => simp at h
  | cons p rest ih =>
    simp only [List.any_cons, Bool.or_eq_true] at h
    simp only [List.map_cons]
    by_cases hp : p.1 = k
    · simp [dictLookup, hp]
    · rw [if_neg hp]
      simp only [dictLookup]
      rw [if_neg hp]
      apply ih
      rcases h with h | h
      · exact absurd (by simpa using h) hp
      · exact h

theorem dictLookup_append_not_mem (d : List (ℕ × ℕ)) (k v : ℕ)
    (h : d.any (fun p => p.1 == k) = false) :
    dictLookup (d ++ [(k, v)]) k = some v := by
  induction d with
  | nil => simp [dictLookup]
  | cons p rest ih =>
    simp only [List.any_cons, Bool.or_eq_false_iff] at h
    simp only [List.cons_append, dictLookup]
    rw [if_neg (by simpa using h.1)]
    exact ih h.2

theorem dictLookup_insert_self (d : List (ℕ × ℕ)) (k v : ℕ) :
    dictLookup (dictInsert d k v) k = some v := by
  unfold dictInsert
  split
  · rename_i hany
    exact dictLookup_overwrite d k v hany
  · rename_i hany
    exact dictLookup_append_not_mem d k v (Bool.eq_false_iff.mpr hany)

theorem dictLookup_map_ne (d : List (ℕ × ℕ)) (k v k1 : ℕ) (hk : k1 ≠ k) :
    dictLookup (d.map (fun p => if p.1 = k then (k, v) else p)) k1
      = dictLookup d k1 := by
  induction d with
  | nil => rfl
  | cons p rest ih =>
    simp only [List.map_cons]
    by_cases hp : p.1 = k
    · rw [if_pos hp]
      simp only [dictLookup]
      rw [if_neg (fun hh => hk hh.symm),
        if_neg (fun hh => hk (hh.symm.trans hp))]
      exact ih
    · rw [if_neg hp]
      simp only [dictLookup]
      by_cases hp1 : p.1 = k1 <;> simp [hp1, ih]

theorem dictLookup_append_ne (d : List (ℕ × ℕ)) (k v k1 : ℕ)
    (hk : k1 ≠ k) :
    dictLookup (d ++ [(k, v)]) k1 = dictLookup d k1 := by
  induction d with
  | nil =>
    simp only [List.nil_append, dictLookup]
    rw [if_neg (fun hh => hk hh.symm)]
  | cons p rest ih =>
    simp only [List.cons_append, dictLookup]
    by_cases hp : p.1 = k1 <;> simp [hp, ih]

theorem dictLookup_insert_ne (d : List (ℕ × ℕ)) (k v k1 : ℕ)
    (hk : k1 ≠ k) :
    dictLookup (dictInsert d k v) k1 = dictLookup d k1 := by
  unfold dictInsert
  split
  · exact dictLookup_map_ne d k v k1 hk
  · exact dictLookup_append_ne d k v k1 hk

theorem dictLookup_foldl (pairs : List (ℕ × ℕ)) :
    ∀ (d : List (ℕ × ℕ)) (k : ℕ),
      dictLookup (pairs.foldl (fun d pr => dictInsert d pr.1 pr.2) d) k =
        match (pairs.filter (fun pr => pr.1 == k)).getLast? with
        | some pr => some pr.2
        | none => dictLookup d k := by
  induction pairs with
  | nil =>
    intro d k
    rfl
  | cons pr rest ih =>
    intro d k
    simp only [List.foldl_cons]
    rw [ih]
    by_cases hpr : pr.1 = k
    · cases hrest : rest.filter (fun p => p.1 == k) with
      | nil =>
        have hfc : (pr :: rest).filter (fun p => p.1 == k) = [pr] := by
          simp [List.filter_cons, hpr, hrest]
        rw [hfc]
        simp only [List.getLast?_nil, List.getLast?_singleton]
        subst hpr
        simp [dictLookup_insert_self]
      | cons y ys =>
        have hfc : (pr :: rest).filter (fun p => p.1 == k) =
            pr :: y :: ys := by
          simp [List.filter_cons, hpr, hrest]
        rw [hfc, List.getLast?_cons_cons]
        cases hy : (y :: ys).getLast? with
        | none => simp at hy
        | some z => rfl
    · have hfe : (pr :: rest).filter (fun p => p.1 == k) =
          rest.filter (fun p => p.1 == k) := by
        simp [List.filter_cons, hpr]
      rw [hfe]
      cases hrest : rest.filter (fun p => p.1 == k) with
      | nil =>
        simp only [List.getLast?_nil]
        exact dictLookup_insert_ne d pr.1 pr.2 k (fun hh => hpr hh.symm)
      | cons y ys =>
        cases hy : (y :: ys).getLast? with
        | none => simp at hy
        | some z => rfl

theorem dictInsert_keys_nodup (d : List (ℕ × ℕ)) (k v : ℕ)
    (h : (d.map Prod.fst).Nodup) :
    ((dictInsert d k v).map Prod.fst).Nodup := by
  unfold dictInsert
  split
  · rename_i hany
    have hkeys : (d.map (fun p => if p.1 = k then (k, v) else p)).map
        Prod.fst = d.map Prod.fst := by
      rw [List.map_map]
      apply List.map_congr_left
      intro p _
      by_cases hpk : p.1 = k <;> simp [hpk, Function.comp]
    rw [hkeys]
    exact h
  · rename_i hany
    have hk : k ∉ d.map Prod.fst := by
      intro hmem
      obtain ⟨p, hp, hpk⟩ := List.mem_map.mp hmem
      exact hany (List.any_eq_true.mpr ⟨p, hp, by simp [hpk]⟩)
    rw [List.map_append]
    simp only [List.map_cons, List.map_nil]
    exact List.Nodup.append h (List.nodup_singleton k)
      (by simpa [List.disjoint_singleton] using hk)

theorem dict_foldl_keys_nodup (pairs : List (ℕ × ℕ)) :
    ∀ d : List (ℕ × ℕ), (d.map Prod.fst).Nodup →
      (((pairs.foldl (fun d pr => dictInsert d pr.1 pr.2) d)).map
        Prod.fst).Nodup := by
  induction pairs with
  | nil => exact fun d h => h
  | cons pr rest ih =>
    intro d h
    exact ih _ (dictInsert_keys_nodup d pr.1 pr.2 h)

theorem measurePairList_replace (m : Bool) (c : TkCircuit) :
    measurePairList m (replace_implicit_wire_swaps c).qubits
      (replace_implicit_wire_swaps c).commands =
    measurePairList m c.qubits c.commands := by
  unfold replace_implicit_wire_swaps measurePairList
  simp only [List.filterMap_append]
  have hz : (c.implicitPerm.map (fun pr => (⟨.SWAP, [],
      [c.qubits.getD pr.1 0, c.qubits.getD pr.2 0], []⟩ : TkCommand))).filterMap
      (fun cmd => if cmd.op = .Measure then
        some ((cmd.qubits.map (trQubit m c.qubits)).getD 0 0,
          cmd.bits.getD 0 0)
        else none) = [] := by
    apply List.filterMap_eq_nil_iff.mpr
    intro cmd hmem
    obtain ⟨pr, _, rfl⟩ := List.mem_map.mp hmem
    rfl
  rw [hz, List.append_nil]

/-- C10: if the input circuit measures the same target qubit more than
once, the measurement map returned by `tk_to_braket` holds, for each
measured qubit, exactly the bit index of the last measurement in source
order (later entries overwrite earlier ones), and it has at most one entry
per qubit (its keys are distinct). -/
theorem C10_measure_map_overwrite (c : TkCircuit) (m : Bool)
    (fq : Option (List ℕ)) (fo : Bool) (bk : BKCircuit) (tq : List ℕ)
    (ms : List (ℕ × ℕ))
    (h : tk_to_braket c m fq fo = .ok (bk, tq, ms)) :
    (ms.map Prod.fst).Nodup ∧
    ∀ k : ℕ, dictLookup ms k =
      ((measurePairList m c.qubits c.commands).filter
        (fun pr => pr.1 == k)).getLast?.map Prod.snd := by
  have hc1m : measurePairList m
      (if nMeasureGates c = 0 then replace_implicit_wire_swaps c
        else c).qubits
      (if nMeasureGates c = 0 then replace_implicit_wire_swaps c
        else c).commands = measurePairList m c.qubits c.commands := by
    split
    · exact measurePairList_replace m c
    · rfl
  simp only [tk_to_braket] at h
  obtain ⟨st, hcc, hb⟩ := map_eq_ok _ _ _ h
  have hms : ms = st.2 := congrArg (fun t => t.2.2) hb
  obtain ⟨_, hm⟩ := convertCommands_ok_spec m _ _ _ st hcc
  rw [hc1m] at hm
  rw [hms, hm]
  constructor
  · exact dict_foldl_keys_nodup _ [] (by simp)
  · intro k
    rw [dictLookup_foldl]
    cases (measurePairList m c.qubits c.commands).filter
        (fun pr => pr.1 == k) |>.getLast? <;> rfl

/-- C10 witness: measuring qubit 0 into bit 0 and then into bit 1 yields
the single-entry map sending braket qubit 0 to bit 1. -/
theorem C10_measure_map_overwrite_witness :
    (([(0, 1)] : List (ℕ × ℕ)).map Prod.fst).Nodup ∧
    ∀ k : ℕ, dictLookup [(0, 1)] k =
      ((measurePairList false cMeas2.qubits cMeas2.commands).filter
        (fun pr => pr.1 == k)).getLast?.map Prod.snd :=
  C10_measure_map_overwrite cMeas2 false none false ⟨[]⟩ [0] [(0, 1)]
    (by decide)

/-! ### Round trip on direct-mapped circuits over the default register -/

theorem posOf_append_of_mem (l1 l2 : List ℕ) (x : ℕ) (h : x ∈ l1) :
    posOf (l1 ++ l2) x = posOf l1 x := by
  induction l1 with
  | nil => cases h
  | cons y rest ih =>
    simp only [List.cons_append, posOf]
    by_cases hy : y = x
    · simp [hy]
    · rcases List.mem_cons.mp h with h1 | h1
      · exact absurd h1.symm hy
      · simp [hy, ih h1]

theorem posOf_append_of_not_mem (l1 l2 : List ℕ) (x : ℕ) (h : x ∉ l1) :
    posOf (l1 ++ l2) x = l1.length + posOf l2 x := by
  induction l1 with
  | nil => simp [posOf]
  | cons y rest ih =>
    simp only [List.cons_append, posOf, List.length_cons, List.append_eq]
    rw [if_neg (fun hy => h (by rw [← hy]; exact List.mem_cons_self y rest))]
    rw [ih (fun hm => h (List.mem_cons_of_mem y hm))]
    omega

theorem posOf_range (n x : ℕ) (h : x < n) : posOf (List.range n) x = x := by
  induction n with
  | zero => omega
  | succ k ih =>
    rw [List.range_succ]
    by_cases hx : x < k
    · rw [posOf_append_of_mem _ _ _ (List.mem_range.mpr hx)]
      exact ih hx
    · have hxk : x = k := by omega
      subst hxk
      rw [posOf_append_of_not_mem _ _ _ (by simp)]
      simp [posOf, List.length_range]

theorem map_trQubit_id (qlist : List ℕ)
    (hq : qlist = List.range qlist.length) (qs : List ℕ)
    (h : qs.all (fun q => qlist.contains q) = true) :
    qs.map (trQubit false qlist) = qs := by
  induction qs with
  | nil => rfl
  | cons q rest ih =>
    simp only [List.all_cons, Bool.and_eq_true] at h
    simp only [List.map_cons]
    rw [ih h.2]
    have hmem : q ∈ qlist := by simpa using h.1
    have hlt : q < qlist.length := by
      rw [hq] at hmem
      simpa using hmem
    have htr : trQubit false qlist q = q := by
      simp only [trQubit, Bool.false_eq_true, if_false]
      rw [hq]
      exact posOf_range qlist.length q hlt
    rw [htr]

theorem convertCommand_direct (qlist : List ℕ)
    (hq : qlist = List.range qlist.length)
    (st : List BKInstruction × List (ℕ × ℕ)) (cmd : TkCommand)
    (hd : directGate cmd.op = true) (hw : wfCommand qlist cmd = true) :
    convertCommand false qlist st cmd =
      .ok (st.1 ++ [directImage cmd], st.2) := by
  obtain ⟨op, params, qubits, bits⟩ := cmd
  cases op <;>
  first
  | exact Bool.noConfusion hd
  | (simp only [wfCommand, qubitArity, paramArity, Bool.and_eq_true,
      beq_iff_eq] at hw
     have hmap := map_trQubit_id qlist hq qubits hw.1.2
     simp only [convertCommand, directImage]
     rw [hmap]
     done)
  | (simp only [wfCommand, qubitArity, paramArity, Bool.and_eq_true,
      beq_iff_eq] at hw
     obtain ⟨p, rfl⟩ := List.length_eq_one.mp hw.1.1.2
     have hmap := map_trQubit_id qlist hq qubits hw.1.2
     simp only [convertCommand, directImage]
     rw [hmap]
     exact rfl)

theorem convertCommands_direct (qlist : List ℕ)
    (hq : qlist = List.range qlist.length) :
    ∀ cmds : List TkCommand,
      cmds.all (fun cmd => directGate cmd.op && wfCommand qlist cmd)
        = true →
      ∀ st : List BKInstruction × List (ℕ × ℕ),
        convertCommands false qlist cmds st =
          .ok (st.1 ++ cmds.map directImage, st.2) := by
  intro cmds
  induction cmds with
  | nil =>
    intro _ st
    simp [convertCommands]
  | cons cmd rest ih =>
    intro hall st
    simp only [List.all_cons, Bool.and_eq_true] at hall
    obtain ⟨⟨hd, hw⟩, hrest⟩ := hall
    simp only [convertCommands,
      convertCommand_direct qlist hq st cmd hd hw]
    rw [ih (by simpa using hrest) (st.1 ++ [directImage cmd], st.2)]
    simp

theorem revStep_directImage (qlist : List ℕ) (st : List TkCommand × ℚ)
    (cmd : TkCommand) (hd : directGate cmd.op = true)
    (hw : wfCommand qlist cmd = true) :
    ∃ ph : ℚ, revStep st (directImage cmd) = .ok (st.1 ++ [cmd], ph) := by
  obtain ⟨op, params, qubits, bits⟩ := cmd
  cases op <;>
  first
  | exact Bool.noConfusion hd
  | (simp only [wfCommand, qubitArity, paramArity, Bool.and_eq_true,
      beq_iff_eq] at hw
     obtain ⟨⟨⟨hql, hpl⟩, hqmem⟩, hbits⟩ := hw
     rw [if_neg (by decide)] at hbits
     have hb : bits = [] := by simpa using hbits
     subst hb
     rw [List.length_eq_zero.mp hpl]
     exact ⟨_, rfl⟩)
  | (simp only [wfCommand, qubitArity, paramArity, Bool.and_eq_true,
      beq_iff_eq] at hw
     obtain ⟨⟨⟨hql, hpl⟩, hqmem⟩, hbits⟩ := hw
     rw [if_neg (by decide)] at hbits
     have hb : bits = [] := by simpa using hbits
     subst hb
     obtain ⟨p, rfl⟩ := List.length_eq_one.mp hpl
     exact ⟨_, rfl⟩)

theorem revLoop_directImages (qlist : List ℕ) :
    ∀ cmds : List TkCommand,
      cmds.all (fun cmd => directGate cmd.op && wfCommand qlist cmd)
        = true →
      ∀ st : List TkCommand × ℚ,
        ∃ ph : ℚ, revLoop (cmds.map directImage) st =
          .ok (st.1 ++ cmds, ph) := by
  intro cmds
  induction cmds with
  | nil =>
    intro _ st
    exact ⟨st.2, by simp [revLoop]⟩
  | cons cmd rest ih =>
    intro hall st
    simp only [List.all_cons, Bool.and_eq_true] at hall
    obtain ⟨⟨hd, hw⟩, hrest⟩ := hall
    obtain ⟨ph1, h1⟩ := revStep_directImage qlist st cmd hd hw
    simp only [List.map_cons, revLoop, h1]
    obtain ⟨ph2, h2⟩ := ih (by simpa using hrest) (st.1 ++ [cmd], ph1)
    rw [h2]
    exact ⟨ph2, by simp⟩

/-- C3 amended: for every well-formed circuit over the default dense qubit
register (the i-th declared qubit has label i), with identity implicit
permutation and built only from gate kinds whose forward mapping is direct
(one instruction, no angle normalization), the reverse translation of the
forward translation reproduces the circuit exactly as a command sequence.
Angle values convert losslessly because multiplication and division by π
are exact mutual inverses over the reals. -/
theorem C3_roundtrip_direct (c : TkCircuit)
    (hq : c.qubits = List.range c.qubits.length)
    (hperm : c.implicitPerm = [])
    (hcmds : c.commands.all (fun cmd => directGate cmd.op &&
      wfCommand c.qubits cmd) = true) :
    ∃ c1 : TkCircuit, roundTrip c = .ok c1 ∧ c1.commands = c.commands := by
  have hnm : nMeasureGates c = 0 := by
    apply List.countP_eq_zero.mpr
    intro cmd hmem hM
    have hcm := List.all_eq_true.mp hcmds cmd hmem
    simp only [Bool.and_eq_true] at hcm
    have hMe : cmd.op = .Measure := by simpa using hM
    rw [hMe] at hcm
    exact Bool.noConfusion hcm.1
  have hc1 : (if nMeasureGates c = 0 then replace_implicit_wire_swaps c
      else c) = c := by
    rw [if_pos hnm]
    exact replace_implicit_nil c hperm
  have hfwd : tk_to_braket c false none false =
      .ok (⟨c.commands.map directImage⟩,
        targetQubitsOf false c.qubits, []) := by
    simp only [tk_to_braket, hc1]
    rw [show ((if (false : Bool) = true then
        List.map (fun q => (⟨"I", [q], []⟩ : BKInstruction))
          (targetQubitsOf false c.qubits) else []) ++
        (match (none : Option (List ℕ)) with
          | some fq => List.map (fun q => (⟨"I", [q], []⟩ : BKInstruction)) fq
          | none => []) : List BKInstruction) = [] from rfl]
    rw [convertCommands_direct c.qubits hq c.commands hcmds ([], [])]
    rfl
  obtain ⟨ph, hrev⟩ :=
    revLoop_directImages c.qubits c.commands hcmds ([], 0)
  refine ⟨⟨bkQubits ⟨c.commands.map directImage⟩, [] ++ c.commands,
    [], ph⟩, ?_, by simp⟩
  unfold roundTrip
  rw [hfwd]
  simp only [braket_to_tk, hrev]
  rfl

/-- C3 amended witness: the direct-gate circuit `cRT` (CX, H, S, T, SWAP,
Ry 3/10, CU1 1/2, V over the default two-qubit register) round-trips to an
identical command sequence. -/
theorem C3_roundtrip_direct_witness :
    ∃ c1 : TkCircuit, roundTrip cRT = .ok c1 ∧ c1.commands = cRT.commands :=
  C3_roundtrip_direct cRT (by decide) rfl (by decide)

/-- C3 counterexample: the single-qubit circuit `cQ1`, whose only declared
qubit carries label 1, is built from a direct gate kind yet does not round
trip to itself as a command sequence: forward translation maps the qubit
to braket index 0 and reverse translation recreates the command on the
qubit labeled 0. -/
theorem C3_counterexample_relabeled_qubit :
    cQ1.commands.all (fun cmd => directGate cmd.op &&
      wfCommand cQ1.qubits cmd) = true ∧
    roundTrip cQ1 = .ok ⟨[0], [⟨.X, [], [0], []⟩], [], 0⟩ ∧
    (⟨[0], [⟨.X, [], [0], []⟩], [], 0⟩ : TkCircuit).commands ≠
      cQ1.commands :=
  ⟨by decide, rfl, by decide⟩

end PytketBraket
